import Mathlib

/-
Verification of the PTMCMCSampler parallel-tempering MCMC engine
(PTMCMCSampler/PTMCMCSampler.py), as a shallow embedding in Lean 4.

Numeric values are modelled by exact rationals; logarithms of uniform
draws and transcendental step ratios enter as parameters, characterised
algebraically where the source fixes them (for example the geometric
step ratio r of the temperature ladder is characterised by
r ^ (K - 1) = Tmax / Tmin, which is exactly what
exp(log(Tmax / Tmin) / (K - 1)) satisfies over the reals).
Values that can be minus infinity (log priors, log posteriors) are
modelled by WithBot.
-/

/-! ## Temperature ladder (temperatureLadder, lines 793-814) -/

/-- Embedding of temperatureLadder: for more than one chain the ladder is
ladder[ii] = Tmin * tstep ** ii for ii < nchain; for a single chain it is
the one-element array [1].  The step ratio tstep is a parameter here: the
source computes it as 1 + sqrt(2/ndim) when Tmax is None and as
exp(log(Tmax/Tmin)/(nchain-1)) otherwise. -/
def temperatureLadder (nchain : ℕ) (Tmin tstep : ℚ) : List ℚ :=
  if 1 < nchain then (List.range nchain).map (fun ii => Tmin * tstep ^ ii) else [1]

/-! ## Parallel-tempering swap (PTswap, lines 679-791) -/

/-- Embedding of the decider acceptance quantity (lines 747-749):
(1/ladder[rank-1] - 1/ladder[rank]) * (lnlike0 - newlnlike), where
lnlike0 is the likelihood of the decider (the hotter chain, rank) and
newlnlike the likelihood received from the colder chain (rank - 1). -/
def deciderLogChainSwap (ladder : ℕ → ℚ) (rank : ℕ) (lnlike0 newlnlike : ℚ) : ℚ :=
  (1 / ladder (rank - 1) - 1 / ladder rank) * (lnlike0 - newlnlike)

/-- Embedding of the decider decision (line 751): accept iff the swap
quantity exceeds the logarithm of the uniform draw made at that point. -/
def deciderAccept (ladder : ℕ → ℚ) (rank : ℕ) (lnlike0 newlnlike logU : ℚ) : Bool :=
  decide (deciderLogChainSwap ladder rank lnlike0 newlnlike > logU)

/-- Messages available to one call of PTswap: whether a proposal from the
colder neighbour is pending (Iprobe, line 738), the likelihood and the
parameter vector received from the neighbour on an exchange, the decision
received back by a proposer (line 712), and the log of the uniform draw
used by the decider. -/
structure SwapMsgs where
  pending : Bool
  nbrLnlike : ℚ
  nbrParams : List ℚ
  proposerReceived : Bool
  logU : ℚ

/-- Result of one call of PTswap: the return code and the new
(p0, lnlike0, lnprob0) chain state. -/
structure SwapResult where
  swapReturn : ℕ
  p0 : List ℚ
  lnlike0 : ℚ
  lnprob0 : ℚ
deriving DecidableEq

/-- Embedding of PTswap (lines 679-791).  On cadence a non-hottest chain
proposes upward and adopts its neighbours decision; otherwise a chain of
positive rank with a pending proposal from below decides acceptance with
deciderAccept.  In both accepting branches likelihoods and parameters are
exchanged and the posterior is recomputed at the own temperature.  The
final return code (lines 783-789) is computed from swapProposed alone,
which only the proposer branch sets. -/
def PTswap (ladder : ℕ → ℚ) (logp : List ℚ → ℚ) (temp : ℚ)
    (rank nchain iter Tskip : ℕ) (p0 : List ℚ) (lnlike0 lnprob0 : ℚ)
    (m : SwapMsgs) : SwapResult :=
  if iter % Tskip = 0 ∧ rank < nchain - 1 then
    if m.proposerReceived then
      ⟨2, m.nbrParams, m.nbrLnlike, 1 / temp * m.nbrLnlike + logp m.nbrParams⟩
    else
      ⟨1, p0, lnlike0, lnprob0⟩
  else if 0 < rank ∧ m.pending then
    if deciderAccept ladder rank lnlike0 m.nbrLnlike m.logU then
      ⟨0, m.nbrParams, m.nbrLnlike, 1 / temp * m.nbrLnlike + logp m.nbrParams⟩
    else
      ⟨0, p0, lnlike0, lnprob0⟩
  else
    ⟨0, p0, lnlike0, lnprob0⟩

/-- Claim C1: for adjacent chains at temperatures T1 < T2 (the ladder
temperatures of ranks rank-1 and rank), with l1 the log-likelihood of the
colder chain (received by the decider) and l2 that of the hotter decider,
the decider computes exactly (1/T1 - 1/T2) * (l2 - l1) and accepts the
swap iff that quantity exceeds the log of the uniform draw. -/
theorem ptswap_decider_criterion (ladder : ℕ → ℚ) (rank : ℕ)
    (T1 T2 l1 l2 logU : ℚ) (h1 : ladder (rank - 1) = T1)
    (h2 : ladder rank = T2) (hT : T1 < T2) :
    deciderLogChainSwap ladder rank l2 l1 = (1 / T1 - 1 / T2) * (l2 - l1) ∧
    (deciderAccept ladder rank l2 l1 logU = true ↔
      (1 / T1 - 1 / T2) * (l2 - l1) > logU) := by
  constructor
  · simp [deciderLogChainSwap, h1, h2]
  · simp [deciderAccept, deciderLogChainSwap, h1, h2]

/-- Witness for C1 at ladder i = 2 ^ i, rank 1 (T1 = 1, T2 = 2),
l1 = 0, l2 = 4, logU = -1. -/
theorem ptswap_decider_criterion_witness :
    ((fun i : ℕ => (2 : ℚ) ^ i) 0 = 1 ∧ (fun i : ℕ => (2 : ℚ) ^ i) 1 = 2 ∧
      (1 : ℚ) < 2) ∧
    deciderLogChainSwap (fun i : ℕ => (2 : ℚ) ^ i) 1 4 0 =
      (1 / 1 - 1 / 2) * (4 - 0) ∧
    (deciderAccept (fun i : ℕ => (2 : ℚ) ^ i) 1 4 0 (-1) = true ↔
      (1 / 1 - 1 / 2) * ((4 : ℚ) - 0) > -1) :=
  ⟨⟨by norm_num, by norm_num, by norm_num⟩,
    ptswap_decider_criterion (fun i : ℕ => (2 : ℚ) ^ i) 1 1 2 0 4 (-1)
      (by norm_num) (by norm_num) (by norm_num)⟩

/-- Counterexample for claim C2: with K = 2 processes, Tmin = 1 and
Tmax = 1, the step ratio of the source is r = (Tmax/Tmin)^(1/(K-1)) = 1
and the ladder is [1, 1], which is not strictly increasing. -/
theorem temperatureLadder_flat_counterexample :
    temperatureLadder 2 1 1 = [1, 1] ∧
    ¬ List.Pairwise (fun a b : ℚ => a < b) (temperatureLadder 2 1 1) := by
  have h : temperatureLadder 2 1 1 = [1, 1] := by
    simp [temperatureLadder, List.range_succ]
  refine ⟨h, ?_⟩
  rw [h]
  intro hp
  have := List.rel_of_pairwise_cons hp (List.mem_singleton.mpr rfl)
  exact absurd this (lt_irrefl 1)

/-- Claim C2 (amended): for K ≥ 2 and Tmin > 0 the ladder has length K,
ladder[0] = Tmin and ladder[i] = Tmin * r^i; it is strictly increasing
provided the step ratio exceeds 1 (which holds for the default ratio
1 + sqrt(2/ndim), and, when Tmax is given, exactly when Tmax > Tmin);
and whenever r^(K-1) = Tmax/Tmin (the defining property of the ratio
r = (Tmax/Tmin)^(1/(K-1)) used when Tmax is given), ladder[K-1] = Tmax. -/
theorem temperatureLadder_spec (K : ℕ) (Tmin Tmax tstep : ℚ)
    (hK : 2 ≤ K) (hTmin : 0 < Tmin) (hstep : 1 < tstep) :
    (temperatureLadder K Tmin tstep).length = K ∧
    (temperatureLadder K Tmin tstep).getD 0 0 = Tmin ∧
    (∀ i, i < K → (temperatureLadder K Tmin tstep).getD i 0 = Tmin * tstep ^ i) ∧
    List.Pairwise (fun a b : ℚ => a < b) (temperatureLadder K Tmin tstep) ∧
    (tstep ^ (K - 1) = Tmax / Tmin →
      (temperatureLadder K Tmin tstep).getD (K - 1) 0 = Tmax) := by
  have hK1 : 1 < K := lt_of_lt_of_le one_lt_two hK
  have hlad : temperatureLadder K Tmin tstep =
      (List.range K).map (fun ii => Tmin * tstep ^ ii) := by
    simp [temperatureLadder, hK1]
  have hlen : (temperatureLadder K Tmin tstep).length = K := by
    simp [hlad]
  have hget : ∀ i, i < K →
      (temperatureLadder K Tmin tstep).getD i 0 = Tmin * tstep ^ i := by
    intro i hi
    rw [hlad]
    have hi2 : i < ((List.range K).map (fun ii => Tmin * tstep ^ ii)).length := by
      simpa using hi
    rw [List.getD_eq_getElem _ _ hi2]
    simp
  refine ⟨hlen, ?_, hget, ?_, ?_⟩
  · have h0 := hget 0 (lt_of_lt_of_le Nat.zero_lt_two hK)
    simpa using h0
  · rw [hlad, List.pairwise_map]
    have hr : List.Pairwise (fun a b : ℕ => a < b) (List.range K) :=
      List.pairwise_lt_range K
    refine hr.imp ?_
    intro a b hab
    have hp : tstep ^ a < tstep ^ b := pow_lt_pow_right₀ hstep hab
    exact mul_lt_mul_of_pos_left hp hTmin
  · intro hroot
    have hK0 : K - 1 < K := Nat.sub_lt (Nat.lt_of_lt_of_le Nat.zero_lt_two hK) Nat.one_pos
    rw [hget (K - 1) hK0, hroot]
    field_simp

/-- Witness for C2 (amended) at K = 3, Tmin = 1, Tmax = 4, tstep = 2. -/
theorem temperatureLadder_spec_witness :
    ((2 : ℕ) ≤ 3 ∧ (0 : ℚ) < 1 ∧ (1 : ℚ) < 2) ∧
    ((temperatureLadder 3 1 2).length = 3 ∧
      (temperatureLadder 3 1 2).getD 0 0 = 1 ∧
      (∀ i, i < 3 → (temperatureLadder 3 1 2).getD i 0 = 1 * 2 ^ i) ∧
      List.Pairwise (fun a b : ℚ => a < b) (temperatureLadder 3 1 2) ∧
      ((2 : ℚ) ^ (3 - 1) = 4 / 1 →
        (temperatureLadder 3 1 2).getD (3 - 1) 0 = 4)) :=
  ⟨⟨by decide, by norm_num, by norm_num⟩,
    temperatureLadder_spec 3 1 4 2 (by decide) (by norm_num) (by norm_num)⟩

/-- Claim C5 (amended): the return code of PTswap reflects only the
proposing role.  It is 2 iff this chain proposed a swap (iteration on
cadence and rank below the hottest) and the decision received was
accept, 1 iff it proposed and the decision was reject, and 0 iff it did
not propose -- even when, as decider, it received and accepted a
neighbours proposal and exchanged state. -/
theorem ptswap_return_codes (ladder : ℕ → ℚ) (logp : List ℚ → ℚ) (temp : ℚ)
    (rank nchain iter Tskip : ℕ) (p0 : List ℚ) (lnlike0 lnprob0 : ℚ)
    (m : SwapMsgs) :
    (PTswap ladder logp temp rank nchain iter Tskip p0 lnlike0 lnprob0 m).swapReturn
      = if iter % Tskip = 0 ∧ rank < nchain - 1 then
          (if m.proposerReceived then 2 else 1)
        else 0 := by
  unfold PTswap
  split
  · split <;> rfl
  · split
    · split <;> rfl
    · rfl

/-- Counterexample for claim C5: rank 1 of 2 chains, at iteration 1 with
Tskip 100 (not on cadence), has a pending proposal from the colder rank 0
and accepts it (swap quantity (1/1 - 1/2) * (10 - 0) = 5 > -1 = log U):
the state is exchanged, yet PTswap returns 0, not 2. -/
theorem ptswap_decider_return_counterexample :
    (PTswap (fun i : ℕ => (2 : ℚ) ^ i) (fun _ => 0) 2 1 2 1 100
        [5] 10 5 ⟨true, 0, [7], false, -1⟩) =
      ⟨0, [7], 0, 0⟩ ∧
    deciderAccept (fun i : ℕ => (2 : ℚ) ^ i) 1 10 0 (-1) = true := by
  constructor
  · unfold PTswap
    norm_num [deciderAccept, deciderLogChainSwap]
  · norm_num [deciderAccept, deciderLogChainSwap]

/-! ## Metropolis stage of PTMCMCOneStep (lines 639-664) -/

/-- Extended values arising in the float computation
diff = newlnprob - lnprob0 + qxy of line 655: a finite rational, plus
or minus infinity, or NaN (from -inf - -inf). -/
inductive FloatVal
  | nan
  | neginf
  | posinf
  | fin (q : ℚ)
deriving DecidableEq

/-- IEEE subtraction a - b for the values a log posterior can take
(finite or -inf, modelled by WithBot): -inf - -inf is NaN,
-inf - finite is -inf, finite - -inf is +inf. -/
def fsub : WithBot ℚ → WithBot ℚ → FloatVal
  | ⊥, ⊥ => .nan
  | ⊥, some _ => .neginf
  | some _, ⊥ => .posinf
  | some a, some b => .fin (a - b)

/-- IEEE addition of a finite float to an extended value (diff + qxy). -/
def faddQ : FloatVal → ℚ → FloatVal
  | .nan, _ => .nan
  | .neginf, _ => .neginf
  | .posinf, _ => .posinf
  | .fin a, q => .fin (a + q)

/-- IEEE comparison diff > logU, where logU = log(rand()) is finite or
-inf (rand() can return 0.0): any comparison with NaN is false, -inf
exceeds nothing, +inf exceeds both -inf and every finite value. -/
def fgt : FloatVal → WithBot ℚ → Bool
  | .nan, _ => false
  | .neginf, _ => false
  | .posinf, _ => true
  | .fin _, ⊥ => true
  | .fin a, some u => decide (u < a)

/-- Chain state mutated by the Metropolis stage: current point, current
log-likelihood and log-posterior, and the accepted-step counter. -/
structure MHState where
  p0 : List ℚ
  lnlike0 : WithBot ℚ
  lnprob0 : WithBot ℚ
  naccepted : ℕ
deriving DecidableEq

/-- The proposed log posterior of lines 643-652: -inf when the log prior
at y is -inf (the likelihood is not used), else lnlike/temp + lp. -/
def proposedLnprob (logp : List ℚ → WithBot ℚ) (logl : List ℚ → ℚ)
    (temp : ℚ) (y : List ℚ) : WithBot ℚ :=
  match logp y with
  | ⊥ => ⊥
  | some lp => some (1 / temp * logl y + lp)

/-- Embedding of the Metropolis stage of PTMCMCOneStep (lines 639-664,
non-resume branch), for a fixed drawn proposal y with Hastings
correction qxy and uniform draw with logarithm logU.  The result none
models the NameError the source would raise by referencing the local
newlnlike, which is never assigned when the prior is -inf; the proofs
show this branch is unreachable. -/
def metropolisUpdate (logp : List ℚ → WithBot ℚ) (logl : List ℚ → ℚ)
    (temp : ℚ) (s : MHState) (y : List ℚ) (qxy : ℚ) (logU : WithBot ℚ) :
    Option MHState :=
  match hy : logp y with
  | ⊥ =>
      if fgt (faddQ (fsub ⊥ s.lnprob0) qxy) logU then none
      else some s
  | some lp =>
      let newlnlike := logl y
      let newlnprob := 1 / temp * newlnlike + lp
      if fgt (faddQ (fsub (some newlnprob) s.lnprob0) qxy) logU then
        some ⟨y, some newlnlike, some newlnprob, s.naccepted + 1⟩
      else some s

/-- Claim C4: when the log prior of the proposed point y is -inf, the
Metropolis stage treats the proposed posterior as -inf, rejects
deterministically -- the chain state and the accepted counter are
returned unchanged and no error is raised -- and never invokes the
log-likelihood function: the result is the same for every likelihood
function. -/
theorem metropolis_infeasible_reject (logp : List ℚ → WithBot ℚ)
    (logl loglB : List ℚ → ℚ) (temp : ℚ) (s : MHState) (y : List ℚ)
    (qxy : ℚ) (logU : WithBot ℚ) (hy : logp y = ⊥) :
    proposedLnprob logp logl temp y = ⊥ ∧
    metropolisUpdate logp logl temp s y qxy logU = some s ∧
    metropolisUpdate logp logl temp s y qxy logU =
      metropolisUpdate logp loglB temp s y qxy logU := by
  have hrej : ∀ g : List ℚ → ℚ,
      metropolisUpdate logp g temp s y qxy logU = some s := by
    intro g
    unfold metropolisUpdate
    split
    next heq =>
      cases hp : s.lnprob0 with
      | bot => simp [fsub, faddQ, fgt, hp]
      | coe q => simp [fsub, faddQ, fgt, hp]
    next lp heq => rw [hy] at heq; exact absurd heq (by simp)
  refine ⟨?_, hrej logl, ?_⟩
  · unfold proposedLnprob
    rw [hy]
  · rw [hrej logl, hrej loglB]

/-- Witness for C4: a prior that is -inf everywhere, two different
likelihood functions, temp = 1, a concrete state and proposal. -/
theorem metropolis_infeasible_reject_witness :
    ((fun _ : List ℚ => (⊥ : WithBot ℚ)) [1] = ⊥) ∧
    (proposedLnprob (fun _ => ⊥) (fun _ => 0) 1 [1] = ⊥ ∧
      metropolisUpdate (fun _ => ⊥) (fun _ => 0) 1 ⟨[0], some 0, some 0, 0⟩
        [1] 0 (some (-1)) = some ⟨[0], some 0, some 0, 0⟩ ∧
      metropolisUpdate (fun _ => ⊥) (fun _ => 0) 1 ⟨[0], some 0, some 0, 0⟩
        [1] 0 (some (-1)) =
      metropolisUpdate (fun _ => ⊥) (fun _ => 1) 1 ⟨[0], some 0, some 0, 0⟩
        [1] 0 (some (-1))) :=
  ⟨rfl, metropolis_infeasible_reject (fun _ => ⊥) (fun _ => 0) (fun _ => 1)
    1 ⟨[0], some 0, some 0, 0⟩ [1] 0 (some (-1)) rfl⟩

/-! ## Proposal cycle (addProposalToCycle lines 923-950,
initialize_jump_proposals lines 159-189, initialize lines 305-312) -/

/-- Proposal identifiers (the __name__ strings of the source); the
differential-evolution proposal is the distinguished key tested by
initialize_jump_proposals, all other proposals are abstract. -/
inductive PropKey
  | DifferentialEvolution
  | other (n : ℕ)
deriving DecidableEq

/-- The proposal cycle together with the acceptance ledger jumpDict
(value = (times proposed, times accepted), keyed by proposal name). -/
structure CycleState where
  propCycle : List PropKey
  jumpDict : List (PropKey × ℕ × ℕ)
deriving DecidableEq

/-- Embedding of addProposalToCycle (lines 923-950): weight 0 returns
immediately; otherwise range(length, length + weight) appends
max(weight, 0) copies of the proposal, and a fresh (0, 0) ledger entry
is inserted when the name is not yet present. -/
def addProposalToCycle (s : CycleState) (func : PropKey) (weight : ℤ) :
    CycleState :=
  if weight = 0 then s
  else
    { propCycle := s.propCycle ++ List.replicate weight.toNat func
      jumpDict :=
        if (s.jumpDict.map Prod.fst).contains func then s.jumpDict
        else s.jumpDict ++ [(func, 0, 0)] }

/-- Errors that initialize can raise while setting up proposals: the
Exception of line 175 (differential evolution alone), the ValueError of
line 309 (empty cycle), and the AttributeError of
get_proposal_object_from_name (line 148) for an unknown key. -/
inductive SetupError
  | deAlone
  | emptyCycle
  | unknownProposal
deriving DecidableEq

/-- Embedding of the registration loop of initialize_jump_proposals
(lines 180-188): each key is first resolved (raising for an unknown
key), then every key other than DifferentialEvolution is registered
with its weight. -/
def registerAll (validKeys : List PropKey) :
    List (PropKey × ℤ) → CycleState → Except SetupError CycleState
  | [], s => .ok s
  | (key, wt) :: rest, s =>
      if validKeys.contains key then
        if key = PropKey.DifferentialEvolution then registerAll validKeys rest s
        else registerAll validKeys rest (addProposalToCycle s key wt)
      else .error .unknownProposal

/-- The same registration loop without the unknown-key failure, used to
describe the cycle its successful runs build. -/
def registerAllPure : List (PropKey × ℤ) → CycleState → CycleState
  | [], s => s
  | (key, wt) :: rest, s =>
      if key = PropKey.DifferentialEvolution then registerAllPure rest s
      else registerAllPure rest (addProposalToCycle s key wt)

/-- Embedding of initialize_jump_proposals (lines 171-189): empty
weights are replaced by the default weights, a weights dictionary whose
keys are exactly [DifferentialEvolution] raises, then all keys are
registered. -/
def setupJumpProposals (validKeys : List PropKey)
    (defaults weights : List (PropKey × ℤ)) (s : CycleState) :
    Except SetupError CycleState :=
  let w := if weights.length = 0 then defaults else weights
  if w.map Prod.fst = [PropKey.DifferentialEvolution] then .error .deAlone
  else registerAll validKeys w s

/-- The empty cycle state a fresh sampler starts from (lines 131-132). -/
def emptyCycleState : CycleState := ⟨[], []⟩

/-- Embedding of the proposal-setup part of initialize (lines 305-309):
run initialize_jump_proposals from the empty cycle, then raise
ValueError iff the resulting cycle is empty. -/
def setupProposalsChecked (validKeys : List PropKey)
    (defaults weights : List (PropKey × ℤ)) : Except SetupError CycleState :=
  match setupJumpProposals validKeys defaults weights emptyCycleState with
  | .error e => .error e
  | .ok s => if s.propCycle.length = 0 then .error .emptyCycle else .ok s

theorem registerAll_ok (validKeys : List PropKey) :
    ∀ (w : List (PropKey × ℤ)) (s : CycleState),
      (∀ kv ∈ w, validKeys.contains kv.1) →
      registerAll validKeys w s = .ok (registerAllPure w s) := by
  intro w
  induction w with
  | nil => intro s _; rfl
  | cons kv rest ih =>
      intro s hval
      obtain ⟨key, wt⟩ := kv
      have hk : validKeys.contains key := hval (key, wt) (List.mem_cons_self _ _)
      have hrest : ∀ kv ∈ rest, validKeys.contains kv.1 := by
        intro kv hkv; exact hval kv (List.mem_cons_of_mem _ hkv)
      have hk2 : key ∈ validKeys := by simpa using hk
      by_cases hde : key = PropKey.DifferentialEvolution
      · subst hde
        simp [registerAll, registerAllPure, hk2, ih _ hrest]
      · simp [registerAll, registerAllPure, hk2, hde, ih _ hrest]

/-- Claim C6: for any supplied nonempty weights whose keys all name
known proposals, setup fails with the DifferentialEvolution-alone error
iff the keys are exactly [DifferentialEvolution], fails with the
empty-cycle error iff the keys are not that singleton and the cycle
built by registering all keys is empty, and otherwise succeeds; both
checks run inside setup, before the sampling loop. -/
theorem setup_config_errors (validKeys : List PropKey)
    (defaults weights : List (PropKey × ℤ))
    (hne : weights ≠ [])
    (hval : ∀ kv ∈ weights, validKeys.contains kv.1) :
    (setupProposalsChecked validKeys defaults weights = .error .deAlone ↔
      weights.map Prod.fst = [PropKey.DifferentialEvolution]) ∧
    (setupProposalsChecked validKeys defaults weights = .error .emptyCycle ↔
      (weights.map Prod.fst ≠ [PropKey.DifferentialEvolution] ∧
        (registerAllPure weights emptyCycleState).propCycle = [])) ∧
    ((weights.map Prod.fst ≠ [PropKey.DifferentialEvolution] ∧
        (registerAllPure weights emptyCycleState).propCycle ≠ []) →
      setupProposalsChecked validKeys defaults weights =
        .ok (registerAllPure weights emptyCycleState)) := by
  have hlen : ¬ weights.length = 0 := fun h => hne (List.length_eq_zero.mp h)
  have hsetup : setupJumpProposals validKeys defaults weights emptyCycleState =
      (if weights.map Prod.fst = [PropKey.DifferentialEvolution]
        then .error .deAlone
        else registerAll validKeys weights emptyCycleState) := by
    unfold setupJumpProposals
    simp [hlen]
  by_cases hDE : weights.map Prod.fst = [PropKey.DifferentialEvolution]
  · have hres : setupProposalsChecked validKeys defaults weights =
        .error .deAlone := by
      unfold setupProposalsChecked
      rw [hsetup, if_pos hDE]
    refine ⟨?_, ?_, ?_⟩
    · simp [hres, hDE]
    · simp [hres, hDE]
    · intro hcontra
      exact absurd hDE hcontra.1
  · have hreg := registerAll_ok validKeys weights emptyCycleState hval
    have hres : setupProposalsChecked validKeys defaults weights =
        (if (registerAllPure weights emptyCycleState).propCycle.length = 0
          then .error .emptyCycle
          else .ok (registerAllPure weights emptyCycleState)) := by
      unfold setupProposalsChecked
      rw [hsetup, if_neg hDE, hreg]
    by_cases hemp : (registerAllPure weights emptyCycleState).propCycle = []
    · have hres2 : setupProposalsChecked validKeys defaults weights =
          .error .emptyCycle := by
        rw [hres, if_pos (by simp [hemp])]
      refine ⟨?_, ?_, ?_⟩
      · simp [hres2, hDE]
      · simp [hres2, hDE, hemp]
      · intro hcontra
        exact absurd hemp hcontra.2
    · have hres2 : setupProposalsChecked validKeys defaults weights =
          .ok (registerAllPure weights emptyCycleState) := by
        rw [hres, if_neg (by simpa using hemp)]
      refine ⟨?_, ?_, ?_⟩
      · simp [hres2, hDE]
      · simp [hres2, hemp]
      · intro _
        exact hres2

/-- Witness for C6: one known non-DE proposal with weight 2 passes both
checks and yields a cycle of two entries. -/
theorem setup_config_errors_witness :
    (([(PropKey.other 0, (2 : ℤ))] : List (PropKey × ℤ)) ≠ [] ∧
      (∀ kv ∈ ([(PropKey.other 0, (2 : ℤ))] : List (PropKey × ℤ)),
        ([PropKey.other 0, PropKey.DifferentialEvolution].contains kv.1))) ∧
    ((setupProposalsChecked [PropKey.other 0, PropKey.DifferentialEvolution]
        [] [(PropKey.other 0, 2)] = .error .deAlone ↔
      [(PropKey.other 0, (2 : ℤ))].map Prod.fst =
        [PropKey.DifferentialEvolution]) ∧
    (setupProposalsChecked [PropKey.other 0, PropKey.DifferentialEvolution]
        [] [(PropKey.other 0, 2)] = .error .emptyCycle ↔
      ([(PropKey.other 0, (2 : ℤ))].map Prod.fst ≠
          [PropKey.DifferentialEvolution] ∧
        (registerAllPure [(PropKey.other 0, 2)] emptyCycleState).propCycle
          = [])) ∧
    (([(PropKey.other 0, (2 : ℤ))].map Prod.fst ≠
          [PropKey.DifferentialEvolution] ∧
        (registerAllPure [(PropKey.other 0, 2)] emptyCycleState).propCycle
          ≠ []) →
      setupProposalsChecked [PropKey.other 0, PropKey.DifferentialEvolution]
        [] [(PropKey.other 0, 2)] =
        .ok (registerAllPure [(PropKey.other 0, 2)] emptyCycleState))) :=
  ⟨⟨by decide, by decide⟩,
    setup_config_errors [PropKey.other 0, PropKey.DifferentialEvolution]
      [] [(PropKey.other 0, 2)] (by decide) (by decide)⟩

/-- Claim C8: for every proposal and non-negative weight w,
addProposalToCycle appends exactly w copies to the cycle, and with
w = 0 it is a complete no-op: no error, cycle and ledger unchanged. -/
theorem addProposalToCycle_nonneg (s : CycleState) (f : PropKey) (w : ℤ)
    (hw : 0 ≤ w) :
    (addProposalToCycle s f w).propCycle =
      s.propCycle ++ List.replicate w.toNat f ∧
    (addProposalToCycle s f w).propCycle.length =
      s.propCycle.length + w.toNat ∧
    (w = 0 → addProposalToCycle s f w = s) := by
  by_cases h0 : w = 0
  · subst h0
    simp [addProposalToCycle]
  · unfold addProposalToCycle
    rw [if_neg h0]
    refine ⟨rfl, by simp, fun hc => absurd hc h0⟩

/-- Witness for C8 at weight 3 on a one-entry cycle. -/
theorem addProposalToCycle_nonneg_witness :
    ((0 : ℤ) ≤ 3) ∧
    ((addProposalToCycle ⟨[PropKey.other 0], [(PropKey.other 0, 1, 1)]⟩
        (PropKey.other 1) 3).propCycle =
      [PropKey.other 0] ++ List.replicate (3 : ℤ).toNat (PropKey.other 1) ∧
    (addProposalToCycle ⟨[PropKey.other 0], [(PropKey.other 0, 1, 1)]⟩
        (PropKey.other 1) 3).propCycle.length =
      [PropKey.other 0].length + (3 : ℤ).toNat ∧
    ((3 : ℤ) = 0 →
      addProposalToCycle ⟨[PropKey.other 0], [(PropKey.other 0, 1, 1)]⟩
        (PropKey.other 1) 3 =
      ⟨[PropKey.other 0], [(PropKey.other 0, 1, 1)]⟩)) :=
  ⟨by decide,
    addProposalToCycle_nonneg ⟨[PropKey.other 0], [(PropKey.other 0, 1, 1)]⟩
      (PropKey.other 1) 3 (by decide)⟩

/-- Claim C10: for a strictly negative weight and a proposal name not
yet in the ledger, addProposalToCycle leaves the cycle unchanged yet
still inserts a fresh (0, 0) ledger entry, raising no error. -/
theorem addProposalToCycle_negative (s : CycleState) (f : PropKey) (w : ℤ)
    (hw : w < 0) (hf : (s.jumpDict.map Prod.fst).contains f = false) :
    (addProposalToCycle s f w).propCycle = s.propCycle ∧
    (addProposalToCycle s f w).jumpDict = s.jumpDict ++ [(f, 0, 0)] := by
  have h0 : w ≠ 0 := by omega
  have ht : w.toNat = 0 := Int.toNat_of_nonpos (le_of_lt hw)
  unfold addProposalToCycle
  rw [if_neg h0]
  simp only [hf]
  simp [ht]

/-- Witness for C10 at weight -2 on a one-entry cycle whose ledger does
not yet know the proposal. -/
theorem addProposalToCycle_negative_witness :
    ((-2 : ℤ) < 0 ∧
      (([(PropKey.other 0, 1, 1)] : List (PropKey × ℕ × ℕ)).map
        Prod.fst).contains (PropKey.other 1) = false) ∧
    ((addProposalToCycle ⟨[PropKey.other 0], [(PropKey.other 0, 1, 1)]⟩
        (PropKey.other 1) (-2)).propCycle = [PropKey.other 0] ∧
    (addProposalToCycle ⟨[PropKey.other 0], [(PropKey.other 0, 1, 1)]⟩
        (PropKey.other 1) (-2)).jumpDict =
      [(PropKey.other 0, 1, 1)] ++ [(PropKey.other 1, 0, 0)]) :=
  ⟨⟨by decide, by decide⟩,
    addProposalToCycle_negative ⟨[PropKey.other 0], [(PropKey.other 0, 1, 1)]⟩
      (PropKey.other 1) (-2) (by decide) (by decide)⟩

/-! ## Trajectory file rows (_writeToFile lines 826-842, buffer shapes
lines 243-245, resume read in sample lines 458-463) -/

/-- The row layout the format string of _writeToFile (lines 833-841)
intends and the resume path of sample assumes: the ndim tab-separated
parameter values, then the log posterior, the log likelihood, the
running acceptance fraction naccepted/iter, and the running
swap-acceptance fraction pt_acc. -/
def writeRow (params : List ℚ) (lnprob lnlike accFrac ptAcc : ℚ) : List ℚ :=
  params ++ [lnprob, lnlike, accFrac, ptAcc]

/-- Embedding of the resume extraction of sample (lines 459-463) from
the first row of the chain file: parameters are columns [:-4], the
likelihood is column -3 and the posterior is column -4. -/
def resumeFirstRow (row : List ℚ) : List ℚ × ℚ × ℚ :=
  (row.take (row.length - 4), row.getD (row.length - 3) 0,
    row.getD (row.length - 4) 0)

/-- numpy indexing a[i, j] on the 3-axis chain buffer of shape
(n_cold_chains, N, ndim): none models the IndexError of an
out-of-range index; a successful index is the length-ndim slice along
the last axis, not a scalar. -/
def npIndex2of3 (a : List (List (List ℚ))) (i j : ℕ) : Option (List ℚ) :=
  match a.get? i with
  | none => none
  | some m => m.get? j

/-- numpy indexing a[i] on the 2-axis buffers of shape
(n_cold_chains, N): the length-N row, none for an out-of-range index. -/
def npIndex1of2 (a : List (List ℚ)) (i : ℕ) : Option (List ℚ) :=
  a.get? i

/-- A float %-format applied to an indexed numpy value: it needs a
scalar, so it succeeds only on a slice of exactly one element (numpy
converts a size-1 array) and raises TypeError (none) on any longer
slice; an IndexError (none) from the indexing propagates. -/
def npFormatFloat (v : Option (List ℚ)) : Option ℚ :=
  match v with
  | some [q] => some q
  | _ => none

/-- Embedding of the row emission of one pass of the _writeToFile loop
(lines 833-841) in this fork: the buffers have the shapes of lines
243-245 -- _chain is (n_cold_chains, N, ndim), _lnprob and _lnlike are
(n_cold_chains, N) -- but the loop indexes them without the chain
axis, as _chain[ind, kk] for kk in range(ndim) and _lnprob[ind],
_lnlike[ind]; none models the TypeError or IndexError raised before
anything is written. -/
def writeToFileRowAttempt (chain : List (List (List ℚ)))
    (lnprobBuf lnlikeBuf : List (List ℚ)) (ndim ind : ℕ)
    (accFrac ptAcc : ℚ) : Option (List ℚ) := do
  let params ← (List.range ndim).mapM
    (fun kk => npFormatFloat (npIndex2of3 chain ind kk))
  let lp ← npFormatFloat (npIndex1of2 lnprobBuf ind)
  let ll ← npFormatFloat (npIndex1of2 lnlikeBuf ind)
  some (params ++ [lp, ll, accFrac, ptAcc])

/-- Claim C7 (code bug): with the buffer shapes of lines 243-245 --
here 2 cold chains, N = 3 recorded samples, ndim = 2 -- the row
emission of _writeToFile fails at every loop index it reaches: at
ind = 0 the %-format receives the length-2 slice _chain[0, kk] and the
length-3 row _lnprob[0] (TypeError), and at ind = 2 the index overruns
the chain axis (IndexError), so no row of the claimed layout is ever
written; the resume path does recover (params, lnlike, lnprob) exactly
from a row of the intended layout, confirming that layout as the
intent the writer fails to produce. -/
theorem writeToFile_shape_bug :
    writeToFileRowAttempt
      [[[1, 2], [3, 4], [5, 6]], [[7, 8], [9, 10], [11, 12]]]
      [[20, 21, 22], [23, 24, 25]] [[30, 31, 32], [33, 34, 35]]
      2 0 3 1 = none ∧
    writeToFileRowAttempt
      [[[1, 2], [3, 4], [5, 6]], [[7, 8], [9, 10], [11, 12]]]
      [[20, 21, 22], [23, 24, 25]] [[30, 31, 32], [33, 34, 35]]
      2 2 3 1 = none ∧
    resumeFirstRow (writeRow [1, 2] 40 30 3 1) = ([1, 2], 30, 40) := by
  refine ⟨?_, ?_, ?_⟩ <;> decide

/-- The intended row layout round-trips: the resume extraction recovers
exactly the parameter vector, the log likelihood and the log posterior
from a row of the layout the format string intends. -/
theorem writeRow_resume_roundtrip (params : List ℚ)
    (lnprob lnlike accFrac ptAcc : ℚ) :
    writeRow params lnprob lnlike accFrac ptAcc =
      params ++ [lnprob, lnlike, accFrac, ptAcc] ∧
    resumeFirstRow (writeRow params lnprob lnlike accFrac ptAcc) =
      (params, lnlike, lnprob) := by
  refine ⟨rfl, ?_⟩
  unfold resumeFirstRow writeRow
  have hlen : (params ++ [lnprob, lnlike, accFrac, ptAcc]).length =
      params.length + 4 := by
    simp
  rw [hlen]
  have h4 : params.length + 4 - 4 = params.length := by omega
  have h3 : params.length + 4 - 3 = params.length + 1 := by omega
  rw [h4, h3]
  refine congrArg₂ Prod.mk ?_ (congrArg₂ Prod.mk ?_ ?_)
  · rw [List.take_left]
  · rw [List.getD_append_right _ _ _ _ (Nat.le_add_right _ _)]
    simp
  · rw [← Nat.add_zero params.length]
    rw [List.getD_append_right _ _ _ _ (Nat.le_add_right _ _)]
    simp

/-! ## Differential-evolution buffer (_updateDEbuffer lines 910-920,
call site in PTMCMCOneStep lines 573-581, recording in updateChains
line 340) -/

/-- Embedding of _updateDEbuffer (line 920): the buffer becomes the
slice AMbuffer[iterArg - burn : iterArg] of the recorded-sample buffer,
modelled as the function from row index to recorded point. -/
def updateDEbuffer (amBuffer : ℕ → List ℚ) (iterArg burn : ℕ) :
    List (List ℚ) :=
  (List.range burn).map (fun k => amBuffer (iterArg - burn + k))

/-- Embedding of the firing condition of the DE-buffer update in
PTMCMCOneStep (line 574): at driver iteration iter it fires iff
(iter - 1) % burn == 0 and (iter - 1) != 0, and then calls
_updateDEbuffer with argument iter - 1. -/
def deUpdateFires (iter burn : ℕ) : Bool :=
  decide ((iter - 1) % burn = 0) && decide (iter - 1 ≠ 0)

/-- The DE buffer committed at driver iteration iter when the update
fires: _updateDEbuffer(iter - 1, burn). -/
def deBufferAfter (amBuffer : ℕ → List ℚ) (iter burn : ℕ) :
    List (List ℚ) :=
  updateDEbuffer amBuffer (iter - 1) burn

/-- Modelled from the spec: the burn most recently recorded points of
the trajectory history once rows 0..latest have been recorded, namely
rows latest-burn+1 .. latest. -/
def lastRecordedRows (amBuffer : ℕ → List ℚ) (latest burn : ℕ) :
    List (List ℚ) :=
  (List.range burn).map (fun k => amBuffer (latest + 1 - burn + k))

/-- Counterexample for claim C9: with burn = 2 and driver iteration 3
(update counter 2, a positive multiple of burn), rows 0..2 have been
recorded (row j is written at the end of iteration j, line 340 runs at
line 675 after the update check of line 574), so the two most recently
recorded rows are rows 1 and 2; but the committed buffer is rows 0 and
1 -- it excludes the most recently recorded row. -/
theorem updateDEbuffer_lag_counterexample :
    deUpdateFires 3 2 = true ∧
    deBufferAfter (fun j => [(j : ℚ)]) 3 2 = [[0], [1]] ∧
    lastRecordedRows (fun j => [(j : ℚ)]) 2 2 = [[1], [2]] ∧
    deBufferAfter (fun j => [(j : ℚ)]) 3 2 ≠
      lastRecordedRows (fun j => [(j : ℚ)]) 2 2 := by
  refine ⟨by decide, ?_, ?_, ?_⟩
  · show updateDEbuffer (fun j => [(j : ℚ)]) 2 2 = [[0], [1]]
    unfold updateDEbuffer
    norm_num [List.range_succ]
  · unfold lastRecordedRows
    norm_num [List.range_succ]
  · intro h
    have h0 : ([[0], [1]] : List (List ℚ)) = [[1], [2]] := by
      calc ([[0], [1]] : List (List ℚ))
          = deBufferAfter (fun j => [(j : ℚ)]) 3 2 := by
            unfold deBufferAfter updateDEbuffer
            norm_num [List.range_succ]
        _ = lastRecordedRows (fun j => [(j : ℚ)]) 2 2 := h
        _ = [[1], [2]] := by
            unfold lastRecordedRows
            norm_num [List.range_succ]
    have h1 : (0 : ℚ) = 1 := by
      have := congrArg (fun l => (l.getD 0 []).getD 0 37) h0
      simpa using this
    exact absurd h1 (by norm_num)

/-- Claim C9 (amended): whenever the DE-buffer update fires at driver
iteration iter (update counter n = iter - 1 a positive multiple of
burn), the buffer is replaced wholesale by the burn consecutive
recorded rows n - burn .. n - 1, i.e. the burn most recent rows
excluding the row n recorded at the end of the previous iteration. -/
theorem updateDEbuffer_window (amBuffer : ℕ → List ℚ) (iter burn : ℕ)
    (hburn : 0 < burn) (hfire : deUpdateFires iter burn = true) :
    (deBufferAfter amBuffer iter burn).length = burn ∧
    (∀ k, k < burn → (deBufferAfter amBuffer iter burn).getD k [] =
      amBuffer (iter - 1 - burn + k)) ∧
    deBufferAfter amBuffer iter burn =
      lastRecordedRows amBuffer (iter - 2) burn := by
  have hfire2 : (iter - 1) % burn = 0 ∧ iter - 1 ≠ 0 := by
    simpa [deUpdateFires] using hfire
  have hle : burn ≤ iter - 1 := by
    rcases Nat.eq_zero_or_pos (iter - 1) with h | h
    · exact absurd h hfire2.2
    · exact Nat.le_of_dvd h (Nat.dvd_of_mod_eq_zero hfire2.1)
  refine ⟨by simp [deBufferAfter, updateDEbuffer], ?_, ?_⟩
  · intro k hk
    unfold deBufferAfter updateDEbuffer
    have hk2 : k < ((List.range burn).map
        (fun k => amBuffer (iter - 1 - burn + k))).length := by
      simpa using hk
    rw [List.getD_eq_getElem _ _ hk2]
    simp
  · unfold deBufferAfter updateDEbuffer lastRecordedRows
    refine congrArg (List.map · (List.range burn)) ?_
    funext k
    have harg : iter - 1 - burn = iter - 2 + 1 - burn := by omega
    rw [harg]

/-- Witness for C9 (amended) at burn = 2, iteration 5 (counter 4). -/
theorem updateDEbuffer_window_witness :
    ((0 : ℕ) < 2 ∧ deUpdateFires 5 2 = true) ∧
    ((deBufferAfter (fun j : ℕ => [(j : ℚ)]) 5 2).length = 2 ∧
      (∀ k, k < 2 → (deBufferAfter (fun j : ℕ => [(j : ℚ)]) 5 2).getD k [] =
        (fun j : ℕ => [(j : ℚ)]) (5 - 1 - 2 + k)) ∧
      deBufferAfter (fun j : ℕ => [(j : ℚ)]) 5 2 =
        lastRecordedRows (fun j : ℕ => [(j : ℚ)]) (5 - 2) 2) :=
  ⟨⟨by decide, by decide⟩,
    updateDEbuffer_window (fun j : ℕ => [(j : ℚ)]) 5 2 (by decide) (by decide)⟩

/-! ## Recursive covariance update (_updateRecursive lines 870-898) -/

/-- The running moments carried across windows: the accumulated sample
count it, the running mean mu and the scatter matrix M2. -/
structure WelfordState (d : ℕ) where
  it : ℕ
  mu : Fin d → ℚ
  M2 : Fin d → Fin d → ℚ

/-- The reset state of lines 882-884: it = 0, mu = 0, M2 = 0. -/
def welfordInit (d : ℕ) : WelfordState d := ⟨0, fun _ => 0, fun _ _ => 0⟩

/-- One pass of the loop body of lines 886-896: it += 1;
diff = x - mu; mu += diff/it; M2 += outer(diff, x - mu) with the
already updated mu. -/
def welfordStep (d : ℕ) (s : WelfordState d) (x : Fin d → ℚ) :
    WelfordState d :=
  { it := s.it + 1
    mu := fun j => s.mu j + (x j - s.mu j) / ((s.it + 1 : ℕ) : ℚ)
    M2 := fun j k => s.M2 j k +
      (x j - s.mu j) *
        (x k - (s.mu k + (x k - s.mu k) / ((s.it + 1 : ℕ) : ℚ))) }

/-- Embedding of one call of _updateRecursive on a window of samples
(the mem rows AMbuffer[iter-mem .. iter-1]): reset the moments when the
carried count it is zero (lines 879-884), then run the loop body over
the window. -/
def updateRecursive (d : ℕ) (s : WelfordState d)
    (window : List (Fin d → ℚ)) : WelfordState d :=
  List.foldl (welfordStep d) (if s.it = 0 then welfordInit d else s) window

/-- The covariance committed at line 898: cov = M2 / (it - 1). -/
def commitCov (d : ℕ) (s : WelfordState d) : Fin d → Fin d → ℚ :=
  fun j k => s.M2 j k / ((s.it : ℚ) - 1)

/-- Sum of the j-th coordinates of a sample list. -/
def sumA (d : ℕ) (xs : List (Fin d → ℚ)) (j : Fin d) : ℚ :=
  (xs.map (fun x => x j)).sum

/-- Sum of the products of the j-th and k-th coordinates. -/
def sumP (d : ℕ) (xs : List (Fin d → ℚ)) (j k : Fin d) : ℚ :=
  (xs.map (fun x => x j * x k)).sum

/-- Sample mean of the j-th coordinate. -/
def listMean (d : ℕ) (xs : List (Fin d → ℚ)) (j : Fin d) : ℚ :=
  sumA d xs j / (xs.length : ℚ)

/-- Modelled from the spec: the direct closed-form batch covariance of
a sample sequence, cov[j][k] = sum_i (x_i[j] - mean[j]) *
(x_i[k] - mean[k]) / (N - 1). -/
def batchCovariance (d : ℕ) (xs : List (Fin d → ℚ)) :
    Fin d → Fin d → ℚ :=
  fun j k =>
    (xs.map (fun x => (x j - listMean d xs j) * (x k - listMean d xs k))).sum
      / ((xs.length : ℚ) - 1)

theorem welfordFold_spec (d : ℕ) (xs : List (Fin d → ℚ)) :
    (List.foldl (welfordStep d) (welfordInit d) xs).it = xs.length ∧
    (∀ j, (List.foldl (welfordStep d) (welfordInit d) xs).mu j =
      sumA d xs j / (xs.length : ℚ)) ∧
    (∀ j k, (List.foldl (welfordStep d) (welfordInit d) xs).M2 j k =
      sumP d xs j k - sumA d xs j * sumA d xs k / (xs.length : ℚ)) := by
  induction xs using List.reverseRecOn with
  | nil => refine ⟨rfl, fun j => by simp [welfordInit, sumA], fun j k => by
      simp [welfordInit, sumA, sumP]⟩
  | append_singleton l x ih =>
      obtain ⟨hit, hmu, hM2⟩ := ih
      have hfold : List.foldl (welfordStep d) (welfordInit d) (l ++ [x]) =
          welfordStep d (List.foldl (welfordStep d) (welfordInit d) l) x := by
        rw [List.foldl_append]
        rfl
      have hsA : ∀ j, sumA d (l ++ [x]) j = sumA d l j + x j := by
        intro j; simp [sumA]
      have hsP : ∀ j k, sumP d (l ++ [x]) j k = sumP d l j k + x j * x k := by
        intro j k; simp [sumP]
      have hlen : (l ++ [x]).length = l.length + 1 := by simp
      rcases Nat.eq_zero_or_pos l.length with h0 | hpos
      · have hl : l = [] := List.length_eq_zero.mp h0
        subst hl
        refine ⟨by simp [hfold, welfordStep, welfordInit, hit], fun j => ?_,
          fun j k => ?_⟩
        · rw [hfold, hlen]
          show (welfordStep d (welfordInit d) x).mu j = _
          simp [welfordStep, welfordInit, hsA, sumA]
        · rw [hfold, hlen]
          show (welfordStep d (welfordInit d) x).M2 j k = _
          simp [welfordStep, welfordInit, hsA, hsP, sumA, sumP]
      · have hn : ((l.length : ℚ)) ≠ 0 := by
          exact_mod_cast Nat.pos_iff_ne_zero.mp hpos
        have hn1 : ((l.length : ℚ)) + 1 ≠ 0 := by positivity
        refine ⟨by simp [hfold, welfordStep, hit], fun j => ?_, fun j k => ?_⟩
        · rw [hfold, hlen]
          show (List.foldl (welfordStep d) (welfordInit d) l).mu j +
              (x j - (List.foldl (welfordStep d) (welfordInit d) l).mu j) /
                (((List.foldl (welfordStep d) (welfordInit d) l).it + 1 : ℕ) : ℚ)
              = _
          rw [hit, hmu j, hsA j]
          push_cast
          field_simp
          ring
        · rw [hfold, hlen]
          show (List.foldl (welfordStep d) (welfordInit d) l).M2 j k +
              (x j - (List.foldl (welfordStep d) (welfordInit d) l).mu j) *
                (x k - ((List.foldl (welfordStep d) (welfordInit d) l).mu k +
                  (x k - (List.foldl (welfordStep d) (welfordInit d) l).mu k) /
                    (((List.foldl (welfordStep d) (welfordInit d) l).it + 1 : ℕ) : ℚ)))
              = _
          rw [hit, hmu j, hmu k, hM2 j k, hsA j, hsA k, hsP j k]
          push_cast
          field_simp
          ring

theorem foldl_updateRecursive (d : ℕ) (ws : List (List (Fin d → ℚ))) :
    ∀ xs : List (Fin d → ℚ),
      List.foldl (updateRecursive d)
        (List.foldl (welfordStep d) (welfordInit d) xs) ws =
      List.foldl (welfordStep d) (welfordInit d) (xs ++ ws.flatten) := by
  induction ws with
  | nil => intro xs; simp
  | cons w ws ih =>
      intro xs
      have hstep : updateRecursive d
          (List.foldl (welfordStep d) (welfordInit d) xs) w =
          List.foldl (welfordStep d) (welfordInit d) (xs ++ w) := by
        unfold updateRecursive
        rcases Nat.eq_zero_or_pos xs.length with h | h
        · have hxs : xs = [] := List.length_eq_zero.mp h
          subst hxs
          simp
        · have hit : (List.foldl (welfordStep d) (welfordInit d) xs).it =
              xs.length := (welfordFold_spec d xs).1
          rw [if_neg (by rw [hit]; omega)]
          rw [List.foldl_append]
      rw [List.foldl_cons, hstep, ih (xs ++ w), List.flatten_cons,
        ← List.append_assoc]

theorem scatter_sum (d : ℕ) (xs : List (Fin d → ℚ)) (j k : Fin d)
    (c ck : ℚ) :
    (xs.map (fun x => (x j - c) * (x k - ck))).sum =
      sumP d xs j k - ck * sumA d xs j - c * sumA d xs k +
        (xs.length : ℚ) * (c * ck) := by
  induction xs with
  | nil => simp [sumA, sumP]
  | cons x l ih =>
      have hA : sumA d (x :: l) j = x j + sumA d l j := by
        simp [sumA]
      have hAk : sumA d (x :: l) k = x k + sumA d l k := by
        simp [sumA]
      have hP : sumP d (x :: l) j k = x j * x k + sumP d l j k := by
        simp [sumP]
      simp only [List.map_cons, List.sum_cons, ih, hA, hAk, hP,
        List.length_cons]
      push_cast
      ring

/-- Claim C3: feeding any sequence of samples window-by-window through
_updateRecursive, starting from the reset state (mu = 0, M2 = 0 at
it = 0), the covariance committed after the whole sequence of N ≥ 2
samples equals the direct closed-form batch covariance of the
sequence, exactly, over exact rational arithmetic. -/
theorem updateRecursive_eq_batchCovariance (d : ℕ)
    (ws : List (List (Fin d → ℚ))) (h2 : 2 ≤ ws.flatten.length) :
    commitCov d (List.foldl (updateRecursive d) (welfordInit d) ws) =
      batchCovariance d ws.flatten := by
  have hfold : List.foldl (updateRecursive d) (welfordInit d) ws =
      List.foldl (welfordStep d) (welfordInit d) ws.flatten := by
    have h := foldl_updateRecursive d ws []
    simpa using h
  obtain ⟨hit, hmu, hM2⟩ := welfordFold_spec d ws.flatten
  have hN : ((ws.flatten.length : ℚ)) ≠ 0 := by
    have : 0 < ws.flatten.length := lt_of_lt_of_le Nat.zero_lt_two h2
    exact_mod_cast Nat.pos_iff_ne_zero.mp this
  funext j k
  rw [hfold]
  unfold commitCov batchCovariance
  rw [hit, hM2 j k]
  have hnum : (ws.flatten.map (fun x =>
      (x j - listMean d ws.flatten j) * (x k - listMean d ws.flatten k))).sum =
      sumP d ws.flatten j k -
        sumA d ws.flatten j * sumA d ws.flatten k / (ws.flatten.length : ℚ) := by
    rw [scatter_sum d ws.flatten j k (listMean d ws.flatten j)
      (listMean d ws.flatten k)]
    unfold listMean
    have key : ∀ P A B N : ℚ, N ≠ 0 →
        P - B / N * A - A / N * B + N * (A / N * (B / N)) = P - A * B / N := by
      intro P A B N h
      field_simp
      ring
    exact key _ _ _ _ hN
  rw [hnum]

/-- Witness for C3 on the one-window sequence [[1], [3]] in dimension 1:
the committed covariance and the batch covariance are both 2. -/
theorem updateRecursive_eq_batchCovariance_witness :
    2 ≤ (([[fun _ : Fin 1 => (1 : ℚ), fun _ : Fin 1 => (3 : ℚ)]] :
        List (List (Fin 1 → ℚ))).flatten).length ∧
    commitCov 1 (List.foldl (updateRecursive 1) (welfordInit 1)
        [[fun _ : Fin 1 => (1 : ℚ), fun _ : Fin 1 => (3 : ℚ)]]) =
      batchCovariance 1
        ([[fun _ : Fin 1 => (1 : ℚ), fun _ : Fin 1 => (3 : ℚ)]] :
          List (List (Fin 1 → ℚ))).flatten :=
  ⟨by simp, updateRecursive_eq_batchCovariance 1
    [[fun _ : Fin 1 => (1 : ℚ), fun _ : Fin 1 => (3 : ℚ)]] (by simp)⟩
